import Mathlib

/-!
Verification of the http-wasm host bridge for Express
(`packages/express/index.ts`).

The TypeScript source is shallowly embedded. Guest linear memory is a
list of byte values, strings are their UTF-8 byte sequences, and every
host function becomes a pure Lean function translated from the source.
`Uint8Array.set` throws on an out-of-bounds destination, so the
embedding uses a total overwrite function and the theorems about data
actually written restrict themselves to in-bounds destinations.
-/

namespace HttpWasm

/-- Byte strings as lists of byte values. -/
abbrev Bytes := List Nat

/-- Guest linear memory (`this.memory : Uint8Array`). -/
abbrev Mem := List Nat

/-- Model of `this.memory.set(v, offset)` for an in-bounds destination:
overwrite `v.length` bytes starting at `offset`. -/
def memSet (mem : Mem) (offset : Nat) (v : Bytes) : Mem :=
  mem.take offset ++ v ++ mem.drop (offset + v.length)

/-- Model of `this.memory.slice(offset, offset + len)`: read `len` bytes
starting at `offset`. -/
def memRead (mem : Mem) (offset len : Nat) : Bytes :=
  (mem.drop offset).take len

theorem memSet_length (mem : Mem) (offset : Nat) (v : Bytes)
    (h : offset + v.length ≤ mem.length) :
    (memSet mem offset v).length = mem.length := by
  simp only [memSet, List.length_append, List.length_take, List.length_drop]
  omega

theorem memRead_memSet (mem : Mem) (offset : Nat) (v : Bytes)
    (h : offset + v.length ≤ mem.length) :
    memRead (memSet mem offset v) offset v.length = v := by
  have hlen : (mem.take offset).length = offset := by
    simp only [List.length_take]; omega
  simp only [memRead, memSet, List.drop_append_eq_append_drop, hlen,
    Nat.sub_self, List.drop_length, List.nil_append, List.drop_zero]
  simp [List.take_append_eq_append_take]

theorem memSet_memSet_append (mem : Mem) (p : Nat) (u v : Bytes)
    (h : p + u.length + v.length ≤ mem.length) :
    memSet (memSet mem p u) (p + u.length) v = memSet mem p (u ++ v) := by
  have ht : (mem.take p).length = p := by simp; omega
  have hA : (memSet mem p u).take (p + u.length) = mem.take p ++ u := by
    simp only [memSet, List.append_assoc, List.take_append_eq_append_take, ht]
    rw [List.take_take, Nat.min_eq_right (by omega : p ≤ p + u.length),
      Nat.add_sub_cancel_left, List.take_length, Nat.sub_self, List.take_zero,
      List.append_nil]
  have hB : (memSet mem p u).drop (p + u.length + v.length) =
      mem.drop (p + u.length + v.length) := by
    simp only [memSet, List.append_assoc, List.drop_append_eq_append_drop, ht]
    rw [List.drop_eq_nil_of_le (by rw [ht]; omega),
      List.drop_eq_nil_of_le (by omega : u.length ≤ p + u.length + v.length - p),
      List.drop_drop]
    simp only [List.nil_append]
    congr 1
    omega
  calc (memSet mem p u).take (p + u.length) ++ v ++
        (memSet mem p u).drop (p + u.length + v.length)
      = (mem.take p ++ u) ++ v ++ mem.drop (p + u.length + v.length) := by
        rw [hA, hB]
    _ = mem.take p ++ (u ++ v) ++ mem.drop (p + (u ++ v).length) := by
        simp only [List.length_append, List.append_assoc, Nat.add_assoc]

/-! ## `mustRead` : guest-supplied ranges (claim C8)

```ts
private mustRead(fieldName, offset, byteCount): Uint8Array {
  if (byteCount == 0) return emptyBuffer;
  if (offset >= this.memory.length ||
      offset + byteCount >= this.memory.length) {
    throw new Error(`out of memory reading ...`);
  }
  return this.memory.slice(offset, offset + byteCount);
}
```
`none` models the thrown error (guest trap). -/

def mustRead (mem : Mem) (offset byteCount : Nat) : Option Bytes :=
  if byteCount = 0 then some []
  else if offset ≥ mem.length ∨ offset + byteCount ≥ mem.length then none
  else some (memRead mem offset byteCount)

/-! ## `writeIfUnderLimit` : the write-if-fits protocol (claim C4)

```ts
private writeIfUnderLimit(offset, limit, v: Buffer): number {
  const vLen = v.length;
  if (vLen > limit || vLen == 0) return vLen;
  this.memory.set(v, offset);
  return vLen;
}
```
Shared by `get_config`, `get_method`, `get_uri`, `get_protocol_version`
(the latter three through `writeStringIfUnderLimit`, which just UTF-8
encodes the string first). -/

def writeIfUnderLimit (mem : Mem) (offset limit : Nat) (v : Bytes) :
    Nat × Mem :=
  if v.length > limit ∨ v.length = 0 then (v.length, mem)
  else (v.length, memSet mem offset v)

/-- C8 counterexample: the range `(offset, len) = (0, 2)` into a memory of
length 2 ends exactly at `memory.length`, so by the claim it is in bounds
and must be read without error; the code traps it (`mustRead` throws),
because its guard uses `offset + byteCount >= memory.length` instead of
`>`. -/
theorem mustRead_exact_end_cex :
    mustRead [7, 8] 0 2 = none ∧
    ¬((0 : Nat) ≥ ([7, 8] : Mem).length ∨ 0 + 2 > ([7, 8] : Mem).length) := by
  decide

/-- C8 amended: a call `mustRead mem offset len` traps if and only if
`len > 0` and (`offset ≥ memory.length` or `offset + len ≥ memory.length`);
in-bounds ranges ending strictly before `memory.length` are read without
error, and `len = 0` never traps. -/
theorem mustRead_bounds_amended (mem : Mem) (offset len : Nat) :
    mustRead mem offset len =
      if 0 < len ∧ (offset ≥ mem.length ∨ offset + len ≥ mem.length) then none
      else some (memRead mem offset len) := by
  rcases Nat.eq_zero_or_pos len with h | h
  · subst h
    simp [mustRead, memRead]
  · have hne : len ≠ 0 := by omega
    simp [mustRead, hne, h]

/-- C4: for every function returning data under the write-if-fits protocol,
the return value is always `n = v.length`; the bytes are written at `buf`
iff `n ≤ buf_limit` and `n > 0` (for an in-bounds destination the written
bytes read back exactly as `v`); in particular `buf_limit = 0` writes
nothing and acts as a pure size query. -/
theorem writeIfUnderLimit_write_iff (mem : Mem) (offset limit : Nat)
    (v : Bytes) :
    (writeIfUnderLimit mem offset limit v).1 = v.length ∧
    (¬(v.length ≤ limit ∧ 0 < v.length) →
      (writeIfUnderLimit mem offset limit v).2 = mem) ∧
    ((v.length ≤ limit ∧ 0 < v.length) →
      (writeIfUnderLimit mem offset limit v).2 = memSet mem offset v ∧
      (offset + v.length ≤ mem.length →
        memRead (writeIfUnderLimit mem offset limit v).2 offset v.length
          = v)) := by
  by_cases hc : v.length > limit ∨ v.length = 0
  · simp only [writeIfUnderLimit]
    rw [if_pos hc]
    exact ⟨rfl, fun _ => rfl, fun h => absurd hc (by omega)⟩
  · simp only [writeIfUnderLimit]
    rw [if_neg hc]
    exact ⟨rfl, fun h => absurd (by omega : v.length ≤ limit ∧ 0 < v.length) h,
      fun _ => ⟨rfl, fun hb => memRead_memSet mem offset v hb⟩⟩

/-- Concrete instance of the C4 theorem: a fitting write lands in memory
and reads back; an over-limit (here `buf_limit = 0`) call leaves memory
untouched. -/
theorem writeIfUnderLimit_write_iff_witness :
    (writeIfUnderLimit [0, 0, 0, 0] 1 2 [5, 6]).2 = memSet [0, 0, 0, 0] 1 [5, 6] ∧
    memRead (writeIfUnderLimit [0, 0, 0, 0] 1 2 [5, 6]).2 1 2 = [5, 6] ∧
    (writeIfUnderLimit [9] 0 0 [5]).2 = [9] :=
  ⟨((writeIfUnderLimit_write_iff [0, 0, 0, 0] 1 2 [5, 6]).2.2 (by decide)).1,
   ((writeIfUnderLimit_write_iff [0, 0, 0, 0] 1 2 [5, 6]).2.2 (by decide)).2
     (by decide),
   (writeIfUnderLimit_write_iff [9] 0 0 [5]).2.1 (by decide)⟩

/-! ## `writeNullTerminated` : the null-terminated-list protocol (claim C6)

```ts
private writeNullTerminated(buf, bufLimit, input: string[]): bigint {
  const count = BigInt(input.length);
  if (count === 0n) return 0n;
  const encodedInput = input.map((i) => Buffer.from(i));
  const byteCount = encodedInput.reduce((acc, i) => acc + i.length + 1, 0);
  const countLen = (count << 32n) | BigInt(byteCount);
  if (byteCount > bufLimit) return countLen;
  let offset = 0;
  for (const s of encodedInput) {
    const sLen = s.length;
    this.memory.set(s, buf + offset);
    offset += sLen;
    this.memory[buf + offset] = 0;
    offset++;
  }
  return countLen;
}
```
Items are already taken as UTF-8 byte sequences (`Buffer.from`). -/

/-- The layout the loop writes: the items back-to-back, each followed by a
single `0x00` byte. -/
def nullTerminate (input : List Bytes) : Bytes :=
  (input.map (fun s => s ++ [0])).flatten

/-- The byte count `encodedInput.reduce((acc, i) => acc + i.length + 1, 0)`. -/
def ntByteCount (input : List Bytes) : Nat :=
  input.foldl (fun acc i => acc + i.length + 1) 0

/-- The write loop: `memory.set(s, buf + offset)` then
`memory[buf + offset] = 0`, advancing `offset` by `s.length + 1`. -/
def writeItems (mem : Mem) (buf : Nat) : List Bytes → Mem
  | [] => mem
  | s :: rest =>
      writeItems (memSet (memSet mem buf s) (buf + s.length) [0])
        (buf + s.length + 1) rest

def writeNullTerminated (mem : Mem) (buf bufLimit : Nat)
    (input : List Bytes) : Nat × Mem :=
  if input.length = 0 then (0, mem)
  else
    let byteCount := ntByteCount input
    let countLen := (input.length <<< 32) ||| byteCount
    if byteCount > bufLimit then (countLen, mem)
    else (countLen, writeItems mem buf input)

theorem ntByteCount_foldl (input : List Bytes) (n : Nat) :
    input.foldl (fun acc i => acc + i.length + 1) n
      = n + (input.map (fun i => i.length + 1)).sum := by
  induction input generalizing n with
  | nil => simp
  | cons s rest ih =>
      rw [List.foldl_cons, ih]
      simp
      omega

theorem ntByteCount_sum (input : List Bytes) :
    ntByteCount input = (input.map (fun i => i.length + 1)).sum := by
  simpa [ntByteCount] using ntByteCount_foldl input 0

theorem nullTerminate_length (input : List Bytes) :
    (nullTerminate input).length
      = (input.map (fun i => i.length + 1)).sum := by
  induction input with
  | nil => simp [nullTerminate]
  | cons s rest ih =>
      simp only [nullTerminate, List.map_cons, List.flatten_cons,
        List.length_append, List.map_cons, List.sum_cons] at ih ⊢
      simp at ih ⊢
      omega

theorem writeItems_eq (input : List Bytes) : ∀ (mem : Mem) (buf : Nat),
    buf + (nullTerminate input).length ≤ mem.length →
    writeItems mem buf input = memSet mem buf (nullTerminate input) := by
  induction input with
  | nil =>
      intro mem buf _
      simp [writeItems, nullTerminate, memSet]
  | cons s rest ih =>
      intro mem buf h
      have hnt : (nullTerminate (s :: rest)).length
          = s.length + 1 + (nullTerminate rest).length := by
        simp [nullTerminate]
        omega
      have hb1 : buf + s.length + 1 ≤ mem.length := by omega
      have hstep : memSet (memSet mem buf s) (buf + s.length) [0]
          = memSet mem buf (s ++ [0]) :=
        memSet_memSet_append mem buf s [0] (by simpa using hb1)
      have hm1len : (memSet mem buf (s ++ [0])).length = mem.length :=
        memSet_length _ _ _ (by simp; omega)
      show writeItems (memSet (memSet mem buf s) (buf + s.length) [0])
        (buf + s.length + 1) rest = _
      rw [hstep, ih _ _ (by rw [hm1len]; omega)]
      have hidx : buf + s.length + 1 = buf + (s ++ [0]).length := by
        simp
        omega
      rw [hidx,
        memSet_memSet_append mem buf (s ++ [0]) (nullTerminate rest)
          (by simp; omega)]
      congr 1

/-- C6: for every `get_header_names` / `get_header_values` call (both
return through `writeNullTerminated`), the returned 64-bit value is
`(count <<< 32) ||| byte_count` with `byte_count` the sum over the items
of their UTF-8 length plus one; if `byte_count > buf_limit` guest memory
is untouched, else the items are laid out back-to-back at `buf`, each
followed by a single `0x00` byte. -/
theorem writeNullTerminated_spec (mem : Mem) (buf bufLimit : Nat)
    (input : List Bytes) :
    (writeNullTerminated mem buf bufLimit input).1
      = (input.length <<< 32) ||| ntByteCount input ∧
    ntByteCount input = (input.map (fun i => i.length + 1)).sum ∧
    (ntByteCount input > bufLimit →
      (writeNullTerminated mem buf bufLimit input).2 = mem) ∧
    (ntByteCount input ≤ bufLimit → buf + ntByteCount input ≤ mem.length →
      memRead (writeNullTerminated mem buf bufLimit input).2 buf
        (ntByteCount input) = nullTerminate input) := by
  by_cases h0 : input.length = 0
  · have : input = [] := List.length_eq_zero.mp h0
    subst this
    refine ⟨by simp [writeNullTerminated, ntByteCount], by simp [ntByteCount], ?_, ?_⟩
    · intro h
      simp [writeNullTerminated]
    · intro _ _
      simp [writeNullTerminated, ntByteCount, memRead, nullTerminate]
  · refine ⟨?_, ntByteCount_sum input, ?_, ?_⟩
    · by_cases hbc : ntByteCount input > bufLimit <;>
        simp [writeNullTerminated, h0, hbc]
    · intro hbc
      simp [writeNullTerminated, h0, hbc]
    · intro hbc hfit
      have hnt : (nullTerminate input).length = ntByteCount input := by
        rw [nullTerminate_length, ntByteCount_sum]
      have hw : (writeNullTerminated mem buf bufLimit input).2
          = writeItems mem buf input := by
        simp [writeNullTerminated, h0, Nat.not_lt.mpr hbc]
      rw [hw, writeItems_eq input mem buf (by omega), ← hnt]
      exact memRead_memSet mem buf (nullTerminate input) (by omega)

/-- Concrete instance of the C6 theorem: two one-byte items are laid out
as `item 0x00 item 0x00`, and an over-limit call leaves memory
untouched. -/
theorem writeNullTerminated_spec_witness :
    memRead (writeNullTerminated [9, 9, 9, 9, 9, 9] 1 4 [[65], [66]]).2 1 4
      = [65, 0, 66, 0] ∧
    (writeNullTerminated [9, 9] 0 3 [[65], [66]]).2 = [9, 9] :=
  ⟨((writeNullTerminated_spec [9, 9, 9, 9, 9, 9] 1 4 [[65], [66]]).2.2.2
      (by decide) (by decide)).trans (by decide),
   (writeNullTerminated_spec [9, 9] 0 3 [[65], [66]]).2.2.1 (by decide)⟩

/-! ## `readBody` : streaming body reads (claim C5)

```ts
const body = ...;                       // request body or buffered response body
const start = state.requestBodyReadIndex;   // (resp.: responseBodyReadIndex)
const end = Math.min(start + bufLimit, body.length);
const slice = body.subarray(start, end);
this.memory.set(slice, buf);
state.requestBodyReadIndex = end;
if (end === body.length) {
  return (1n << 32n) | BigInt(slice.length);
}
return BigInt(slice.length);
```
The model returns the chunk delivered to the guest, the new cursor and
the packed 64-bit result (the `memory.set` destination write follows the
`memSet` semantics already covered by the write-protocol claims). -/

structure ReadResult where
  chunk : Bytes
  cursor : Nat
  ret : Nat
  deriving DecidableEq

def readBody (body : Bytes) (cursor bufLimit : Nat) : ReadResult :=
  let e := min (cursor + bufLimit) body.length
  let slice := (body.drop cursor).take (e - cursor)
  { chunk := slice, cursor := e,
    ret := if e = body.length then (1 <<< 32) ||| slice.length
           else slice.length }

/-- Repeated `read_body` calls with the given buffer limits, threading the
per-request cursor. -/
def runReads (body : Bytes) (cursor : Nat) : List Nat → List ReadResult
  | [] => []
  | l :: ls =>
      let r := readBody body cursor l
      r :: runReads body r.cursor ls

/-- The cursor after running the given sequence of reads. -/
def cursorAfter (body : Bytes) (cursor : Nat) : List Nat → Nat
  | [] => cursor
  | l :: ls => cursorAfter body (readBody body cursor l).cursor ls

theorem readBody_cursor_le (body : Bytes) (cursor l : Nat)
    (h : cursor ≤ body.length) :
    cursor ≤ (readBody body cursor l).cursor ∧
      (readBody body cursor l).cursor ≤ body.length := by
  simp [readBody]
  omega

theorem testBit32_eofRet (n : Nat) (h : n < 2 ^ 32) :
    Nat.testBit ((1 <<< 32) ||| n) 32 = true := by
  rw [Nat.testBit_lor, Nat.testBit_lt_two_pow h]
  decide

theorem readBody_eofBit (body : Bytes) (cursor l : Nat)
    (hlen : body.length < 2 ^ 32) :
    (Nat.testBit (readBody body cursor l).ret 32 = true ↔
      (readBody body cursor l).cursor = body.length) := by
  have hsl : ((body.drop cursor).take
      (min (cursor + l) body.length - cursor)).length < 2 ^ 32 := by
    simp only [List.length_take, List.length_drop]
    omega
  by_cases he : min (cursor + l) body.length = body.length
  · have hcur : (readBody body cursor l).cursor = body.length := he
    have hret : (readBody body cursor l).ret
        = (1 <<< 32) |||
          ((body.drop cursor).take
            (min (cursor + l) body.length - cursor)).length := if_pos he
    rw [hret, hcur]
    exact ⟨fun _ => rfl, fun _ => testBit32_eofRet _ hsl⟩
  · have hcur : (readBody body cursor l).cursor ≠ body.length := he
    have hret : (readBody body cursor l).ret
        = ((body.drop cursor).take
            (min (cursor + l) body.length - cursor)).length := if_neg he
    rw [hret, Nat.testBit_lt_two_pow hsl]
    simp [hcur]

theorem cursorAfter_bounds (body : Bytes) (limits : List Nat) :
    ∀ cursor, cursor ≤ body.length →
      cursor ≤ cursorAfter body cursor limits ∧
        cursorAfter body cursor limits ≤ body.length := by
  induction limits with
  | nil => intro cursor h; exact ⟨Nat.le_refl _, h⟩
  | cons l ls ih =>
      intro cursor h
      have h1 := readBody_cursor_le body cursor l h
      have h2 := ih (readBody body cursor l).cursor h1.2
      exact ⟨Nat.le_trans h1.1 h2.1, h2.2⟩

theorem take_drop_chain (body : Bytes) (c e f : Nat) (h1 : c ≤ e)
    (h2 : e ≤ f) :
    (body.drop c).take (e - c) ++ (body.drop e).take (f - e)
      = (body.drop c).take (f - c) := by
  have hsum : f - c = (e - c) + (f - e) := by omega
  have hdd : (body.drop c).drop (e - c) = body.drop e := by
    rw [List.drop_drop]
    congr 1
    omega
  rw [hsum, List.take_add, hdd]

theorem runReads_join (body : Bytes) (limits : List Nat) :
    ∀ cursor, cursor ≤ body.length →
      ((runReads body cursor limits).map (fun r => r.chunk)).flatten
        = (body.drop cursor).take (cursorAfter body cursor limits - cursor) := by
  induction limits with
  | nil => intro cursor h; simp [runReads, cursorAfter]
  | cons l ls ih =>
      intro cursor h
      have h1 := readBody_cursor_le body cursor l h
      have h2 := cursorAfter_bounds body ls (readBody body cursor l).cursor h1.2
      simp only [runReads, cursorAfter, List.map_cons, List.flatten_cons]
      rw [ih (readBody body cursor l).cursor h1.2]
      have hchunk : (readBody body cursor l).chunk
          = (body.drop cursor).take ((readBody body cursor l).cursor - cursor) :=
        rfl
      rw [hchunk]
      exact take_drop_chain body cursor (readBody body cursor l).cursor
        (cursorAfter body (readBody body cursor l).cursor ls) h1.1 h2.1

theorem runReads_mem_facts (body : Bytes) (limits : List Nat)
    (hlen : body.length < 2 ^ 32) :
    ∀ cursor, cursor ≤ body.length →
      ∀ r ∈ runReads body cursor limits,
        r.cursor ≤ body.length ∧
        r.cursor ≤ cursorAfter body cursor limits ∧
        (Nat.testBit r.ret 32 = true ↔ r.cursor = body.length) := by
  induction limits with
  | nil => intro cursor h r hr; simp [runReads] at hr
  | cons l ls ih =>
      intro cursor h r hr
      have h1 := readBody_cursor_le body cursor l h
      have h2 := cursorAfter_bounds body ls (readBody body cursor l).cursor h1.2
      simp only [runReads, List.mem_cons] at hr
      rcases hr with hr | hr
      · subst hr
        exact ⟨h1.2, by simpa [cursorAfter] using h2.1,
          readBody_eofBit body cursor l hlen⟩
      · have h3 := ih (readBody body cursor l).cursor h1.2 r hr
        exact ⟨h3.1, by simpa [cursorAfter] using h3.2.1, h3.2.2⟩

/-- C5: from an initial cursor of `0`, repeated `read_body` calls (with any
buffer limits) deliver successive chunks whose concatenation is the prefix
of the body up to the final cursor; the cursor never exceeds
`body.length`; bit 32 of each 64-bit result is set exactly when that call
moved (or found) the cursor at the end of the body; and as soon as some
call reports EOF the chunks concatenate to exactly the full body. -/
theorem readBody_stream_spec (body : Bytes) (limits : List Nat)
    (hlen : body.length < 2 ^ 32) :
    ((runReads body 0 limits).map (fun r => r.chunk)).flatten
        = body.take (cursorAfter body 0 limits) ∧
    cursorAfter body 0 limits ≤ body.length ∧
    (∀ r ∈ runReads body 0 limits,
      r.cursor ≤ body.length ∧
      (Nat.testBit r.ret 32 = true ↔ r.cursor = body.length)) ∧
    ((∃ r ∈ runReads body 0 limits, Nat.testBit r.ret 32 = true) →
      ((runReads body 0 limits).map (fun r => r.chunk)).flatten = body) := by
  have hjoin := runReads_join body limits 0 (Nat.zero_le _)
  have hbounds := cursorAfter_bounds body limits 0 (Nat.zero_le _)
  have hmem := runReads_mem_facts body limits hlen 0 (Nat.zero_le _)
  refine ⟨by simpa using hjoin, hbounds.2, ?_, ?_⟩
  · intro r hr
    exact ⟨(hmem r hr).1, (hmem r hr).2.2⟩
  · rintro ⟨r, hr, hbit⟩
    have h3 := hmem r hr
    have hcur : r.cursor = body.length := h3.2.2.mp hbit
    have hfin : cursorAfter body 0 limits = body.length :=
      Nat.le_antisymm hbounds.2 (hcur ▸ h3.2.1)
    rw [hjoin, hfin]
    simp

/-- Concrete instance of the C5 theorem: body `[1,2,3]` read with limits
`[2,2]` concatenates to the whole body, with EOF reported on the second
call. -/
theorem readBody_stream_spec_witness :
    ((runReads [1, 2, 3] 0 [2, 2]).map (fun r => r.chunk)).flatten
      = [1, 2, 3] ∧
    Nat.testBit (readBody [1, 2, 3] 2 2).ret 32 = true :=
  ⟨((readBody_stream_spec [1, 2, 3] [2, 2] (by decide)).1).trans (by decide),
   ((readBody_stream_spec [1, 2, 3] [2, 2] (by decide)).2.2.1
      (readBody [1, 2, 3] 2 2) (by decide)).2.mpr (by decide)⟩

/-! ## The per-request lifecycle driver (claim C1)

```ts
const ctxNext = handleRequest();
if ((ctxNext & 0x1n) !== 0x1n) {
  // wasm populated a response so end it.
  res.end();
} else {
  next();
  state.nextCalled = true;
  const ctx = Number(ctxNext >> 32n);
  handleResponse(ctx);
}
```
`handleResponse` is invoked with a single argument: the wasm export's
second parameter (`is_error`) receives `undefined`, which the JS-to-wasm
`i32` coercion turns into `0`. There is no try/catch around `next()`: if
the downstream handler raises, the exception propagates out of the
driver and `handleResponse` is never reached. -/

/-- The signed (two's-complement) reading of a 64-bit pattern: a wasm
`i64` result surfaces in JS as a signed `BigInt`. -/
def toSigned64 (u : Nat) : Int :=
  if u < 2 ^ 63 then (u : Int) else (u : Int) - 2 ^ 64

/-- JS `Number(x)` for an integer of magnitude below `2^32` is exact; the
wasm `i32` argument coercion then reduces it modulo `2^32`. The result is
the unsigned bit pattern the guest observes. -/
def toUInt32bits (x : Int) : Nat := (x % (2 ^ 32 : Int)).toNat

/-- The value `Number(ctxNext >> 32n)` as received by the guest: BigInt `>>` is an
arithmetic shift, i.e. floor division. -/
def ctxArg (ctxNext : Nat) : Nat :=
  toUInt32bits ((toSigned64 ctxNext).fdiv (2 ^ 32))

structure DriverOutcome where
  /-- the host called `res.end()` (direct-response path) -/
  responseEnded : Bool
  /-- value of `state.nextCalled` after the driver ran -/
  nextCalled : Bool
  /-- the `(ctx, is_error)` i32 bit patterns passed to `handle_response`,
  or `none` when it was not invoked -/
  handleResponseCall : Option (Nat × Nat)
  /-- the downstream exception escaped the driver -/
  errorPropagated : Bool
  deriving DecidableEq

def driveRequest (ctxNext : Nat) (downstreamRaises : Bool) : DriverOutcome :=
  if ctxNext % 2 ≠ 1 then
    { responseEnded := true, nextCalled := false,
      handleResponseCall := none, errorPropagated := false }
  else if downstreamRaises then
    { responseEnded := false, nextCalled := false,
      handleResponseCall := none, errorPropagated := true }
  else
    { responseEnded := false, nextCalled := true,
      handleResponseCall := some (ctxArg ctxNext, 0),
      errorPropagated := false }

/-- The BigInt arithmetic shift followed by the `i32` coercion recovers
the unsigned high 32 bits exactly, even when the `i64` reading of
`ctx_next` is negative. -/
theorem ctxArg_eq (u : Nat) (h : u < 2 ^ 64) : ctxArg u = u / 2 ^ 32 := by
  unfold ctxArg toUInt32bits toSigned64
  rw [Int.fdiv_eq_ediv _ (by norm_num)]
  split <;> omega

/-- C1 counterexample: with `ctx_next = 1` (proceed bit set) and a
downstream handler that raises, the code never invokes `handle_response`
(the exception propagates out of the driver), whereas the claim requires
`handle_response` to be invoked with `is_error = 1`. -/
theorem driveRequest_raise_cex :
    (driveRequest 1 true).handleResponseCall = none ∧
    (driveRequest 1 true).errorPropagated = true := by
  decide

/-- C1 amended: if the low bit of `ctx_next` is clear, `handle_response`
is not invoked and the host ends the response. If the low bit is set and
the downstream handler raises, `handle_response` is not invoked and the
error propagates. If the low bit is set and the downstream handler
completes, it runs first, `nextCalled` is set, and `handle_response`
receives the high 32 bits of `ctx_next` bit-exact with an `is_error`
argument that is always `0`. -/
theorem driveRequest_dispatch_amended (ctxNext : Nat) (raises : Bool)
    (h : ctxNext < 2 ^ 64) :
    (ctxNext % 2 = 0 →
      driveRequest ctxNext raises =
        { responseEnded := true, nextCalled := false,
          handleResponseCall := none, errorPropagated := false }) ∧
    (ctxNext % 2 = 1 → raises = true →
      driveRequest ctxNext raises =
        { responseEnded := false, nextCalled := false,
          handleResponseCall := none, errorPropagated := true }) ∧
    (ctxNext % 2 = 1 → raises = false →
      driveRequest ctxNext raises =
        { responseEnded := false, nextCalled := true,
          handleResponseCall := some (ctxNext / 2 ^ 32, 0),
          errorPropagated := false }) := by
  refine ⟨fun h0 => ?_, fun h1 hr => ?_, fun h1 hr => ?_⟩
  · simp [driveRequest, h0]
  · subst hr
    simp [driveRequest, h1]
  · subst hr
    simp [driveRequest, h1, ctxArg_eq ctxNext h]

/-- Concrete instance of the amended C1 theorem: a `ctx_next` whose `i64`
reading is negative (`0xDEADBEEF` in the high bits, proceed bit set)
still hands `ctx = 0xDEADBEEF` to `handle_response`, with `is_error`
`0`. -/
theorem driveRequest_dispatch_amended_witness :
    driveRequest (3735928559 * 2 ^ 32 + 1) false =
      { responseEnded := false, nextCalled := true,
        handleResponseCall := some (3735928559, 0),
        errorPropagated := false } := by
  have h := (driveRequest_dispatch_amended (3735928559 * 2 ^ 32 + 1) false
    (by norm_num)).2.2 (by omega) rfl
  rw [h]
  norm_num

/-! ## `enable_features` (claim C3)

```ts
private enableFeatures(features: number): number {
  const state = stateStorage.getStore();
  if (state) {
    state.features = new Features(features);
    return features;
  }
  const mwState = mwStateStorage.getStore()!;
  mwState.features = new Features(features);
  return features;
}
```
The stored `Features` wraps the incoming number as given: it is not
unioned with the mask previously in effect. -/

structure ScopedFeatures where
  /-- field `RequestState._features`: set only once the guest raises features
  during a request; before that, reads fall back to the middleware
  mask. -/
  requestFeatures : Option Nat
  /-- field `MiddlewareState._features`. -/
  mwFeatures : Nat
  deriving DecidableEq

/-- The mask in effect: the `RequestState.features` getter returns the
per-request override if present, else the middleware mask. `inRequest`
is whether `stateStorage.getStore()` found a request in flight. -/
def currentMask (st : ScopedFeatures) (inRequest : Bool) : Nat :=
  if inRequest then st.requestFeatures.getD st.mwFeatures else st.mwFeatures

def enableFeatures (st : ScopedFeatures) (inRequest : Bool) (want : Nat) :
    Nat × ScopedFeatures :=
  if inRequest then (want, { st with requestFeatures := some want })
  else (want, { st with mwFeatures := want })

/-- C3 counterexample: with middleware mask `1` (`BUFFER_REQUEST`)
already in effect, `enable_features(2)` stores and returns `2`, not the
union `3`; bit 0, set before the call, is cleared afterwards, so the
mask is not monotonic. -/
theorem enableFeatures_not_union_cex :
    (enableFeatures ⟨none, 1⟩ false 2).1 = 2 ∧
    currentMask (enableFeatures ⟨none, 1⟩ false 2).2 false = 2 ∧
    (1 ||| 2 : Nat) = 3 ∧
    Nat.testBit (currentMask ⟨none, 1⟩ false) 0 = true ∧
    Nat.testBit (currentMask (enableFeatures ⟨none, 1⟩ false 2).2 false) 0
      = false := by
  decide

/-- C3 amended: `enable_features(want)` overwrites the scoped mask
(request-scoped if in-request, else middleware-scoped) with exactly
`want` and returns `want`; the other scope is untouched. Bits absent
from `want` are dropped, so the mask is not monotonic. -/
theorem enableFeatures_overwrite_amended (st : ScopedFeatures)
    (inRequest : Bool) (want : Nat) :
    (enableFeatures st inRequest want).1 = want ∧
    currentMask (enableFeatures st inRequest want).2 inRequest = want ∧
    (inRequest = true →
      ((enableFeatures st inRequest want).2).mwFeatures = st.mwFeatures) ∧
    (inRequest = false →
      ((enableFeatures st inRequest want).2).requestFeatures
        = st.requestFeatures) := by
  cases inRequest <;> simp [enableFeatures, currentMask]

/-- Concrete instance of the amended C3 theorem: an in-request
`enable_features(6)` makes the request-scoped mask `6` and leaves the
middleware mask at `1`. -/
theorem enableFeatures_overwrite_amended_witness :
    (currentMask (enableFeatures ⟨none, 1⟩ true 6).2 true = 6 ∧
      (enableFeatures ⟨none, 1⟩ true 6).2.mwFeatures = 1) ∧
    (enableFeatures ⟨none, 1⟩ false 2).2.requestFeatures = none :=
  ⟨⟨(enableFeatures_overwrite_amended ⟨none, 1⟩ true 6).2.1,
    (enableFeatures_overwrite_amended ⟨none, 1⟩ true 6).2.2.1 rfl⟩,
   (enableFeatures_overwrite_amended ⟨none, 1⟩ false 2).2.2.2 rfl⟩

/-! ## `write_body` (claim C2)

```ts
private writeBody(kind: BodyKind, body: number, bodyLen: number) {
  let b: Uint8Array;
  if (bodyLen == 0) { b = emptyBuffer; }
  else { b = this.mustRead('body', body, bodyLen); }
  const store = stateStorage.getStore()!;
  switch (kind) {
    case BodyKind.REQUEST:
      if (store.requestBodyReplaced) {
        store.request.body = Buffer.concat([store.request.body, b]);
      } else {
        store.request.body = Buffer.from(b);
      }
      break;
    case BodyKind.RESPONSE:
      if (!store.nextCalled) {
        store.response.write(b);
      } else if (store.responseBodyReplaced) {
        (store.response as BufferedResponse).buffer.appendBody(...);
      } else {
        (store.response as BufferedResponse).buffer.replaceBody(...);
      }
      break;
  }
}
```
Nothing in the source ever assigns `true` to `requestBodyReplaced` or
`responseBodyReplaced` — the `RequestState` setters are dead code — so
the append branches are unreachable; the model keeps the branch
structure as written. -/

inductive BodyKind
  | request
  | response
  deriving DecidableEq

structure WriteBodyState where
  nextCalled : Bool
  /-- field `store.request.body` -/
  requestBody : Bytes
  requestBodyReplaced : Bool
  responseBodyReplaced : Bool
  /-- field `ResponseBuffer._body` -/
  respBuffer : Bytes
  /-- chunks passed to `response.write` (direct path before `next`) -/
  directWrites : List Bytes
  deriving DecidableEq

def writeBody (st : WriteBodyState) (kind : BodyKind) (b : Bytes) :
    WriteBodyState :=
  match kind with
  | .request =>
      if st.requestBodyReplaced then
        { st with requestBody := st.requestBody ++ b }
      else
        { st with requestBody := b }
  | .response =>
      if !st.nextCalled then
        { st with directWrites := st.directWrites ++ [b] }
      else if st.responseBodyReplaced then
        { st with respBuffer := st.respBuffer ++ b }
      else
        { st with respBuffer := b }

/-- C2 (code bug): during `handle_response` (`nextCalled = true`,
`responseBodyReplaced` still `false`), two successive
`write_body(RESPONSE, ...)` calls leave the buffered body equal to the
second chunk alone, and the flag still `false`: the first call replaces
but never sets `responseBodyReplaced`, so the second call replaces
again instead of appending as the claim requires. -/
theorem writeBody_response_always_replaces :
    (writeBody
      { nextCalled := true, requestBody := [], requestBodyReplaced := false,
        responseBodyReplaced := false, respBuffer := [9],
        directWrites := [] } .response [1]).respBuffer = [1] ∧
    (writeBody
      { nextCalled := true, requestBody := [], requestBodyReplaced := false,
        responseBodyReplaced := false, respBuffer := [9],
        directWrites := [] } .response [1]).responseBodyReplaced = false ∧
    (writeBody (writeBody
      { nextCalled := true, requestBody := [], requestBodyReplaced := false,
        responseBodyReplaced := false, respBuffer := [9],
        directWrites := [] } .response [1]) .response [2]).respBuffer
      = [2] := by
  decide

/-! ## `ResponseBuffer` and `bufferResponse` (claim C7)

`bufferResponse` replaces `res.write`, `res.addTrailers` and `res.end`
with functions that only mutate the attached `ResponseBuffer`; the
original methods (`_origWrite`, `_origAddTrailers`, `_origEnd`) are
captured in the buffer and called only by `release()`. The underlying
response is modeled as the list of events delivered to those original
methods ("the wire"). -/

/-- An event delivered to the underlying response: bytes, trailers or
termination reaching the wire. -/
inductive WireEvent
  | write (b : Bytes)
  | addTrailers (t : List (String × List String))
  | endRes (cb : Option Nat)
  deriving DecidableEq

structure WireState where
  events : List WireEvent
  deriving DecidableEq

def origWrite (w : WireState) (b : Bytes) : WireState :=
  ⟨w.events ++ [.write b]⟩

def origAddTrailers (w : WireState) (t : List (String × List String)) :
    WireState :=
  ⟨w.events ++ [.addTrailers t]⟩

def origEnd (w : WireState) (cb : Option Nat) : WireState :=
  ⟨w.events ++ [.endRes cb]⟩

structure ResponseBuffer where
  body : Bytes
  trailers : List (String × List String)
  /-- the stored end callback, by identifier; `none` is the initial
  no-op callback -/
  cb : Option Nat
  deriving DecidableEq

/-- The buffer as constructed: empty body, no trailers, no-op
callback. -/
def initBuffer : ResponseBuffer := ⟨[], [], none⟩

/-- Model of `ResponseBuffer.addTrailer`: push onto the per-name list, creating
the entry if absent. -/
def pushTrailer : List (String × List String) → String → String →
    List (String × List String)
  | [], k, v => [(k, [v])]
  | (k2, vs) :: rest, k, v =>
      if k2 = k then (k2, vs ++ [v]) :: rest
      else (k2, vs) :: pushTrailer rest k v

/-- One intercepted call on the buffered response. `write` covers
`res.write(chunk[, encoding][, cb])` — any client callback is invoked
immediately and never touches the wire; `addTrailers` covers both the
array and the object form of `res.addTrailers`, each of which reduces to
a sequence of `buffer.addTrailer(k, v)` calls; the `end` cases cover the
three branches of the intercepted `res.end` (no data, callback only,
data with optional callback). -/
inductive RespOp
  | write (chunk : Bytes)
  | addTrailerPairs (pairs : List (String × String))
  | endNone
  | endCb (f : Nat)
  | endData (data : Bytes) (f : Option Nat)
  deriving DecidableEq

def applyOp (s : ResponseBuffer × WireState) (op : RespOp) :
    ResponseBuffer × WireState :=
  match op with
  | .write chunk => ({ s.1 with body := s.1.body ++ chunk }, s.2)
  | .addTrailerPairs pairs =>
      ({ s.1 with trailers :=
          pairs.foldl (fun t kv => pushTrailer t kv.1 kv.2) s.1.trailers },
        s.2)
  | .endNone => s
  | .endCb f => ({ s.1 with cb := some f }, s.2)
  | .endData data f =>
      ({ s.1 with
          body := (s.1.body ++ data),
          cb := (match f with | some c => some c | none => s.1.cb) }, s.2)

def applyOps (s : ResponseBuffer × WireState) (ops : List RespOp) :
    ResponseBuffer × WireState :=
  ops.foldl applyOp s

/-- Model of `ResponseBuffer.release()`:
```ts
release() {
  this._origWrite(this._body);
  this._origAddTrailers(this._trailers);
  this._origEnd(this._cb);
}
``` -/
def release (s : ResponseBuffer × WireState) : WireState :=
  origEnd (origAddTrailers (origWrite s.2 s.1.body) s.1.trailers) s.1.cb

/-- The bytes an intercepted call accumulates into the buffered body. -/
def opBodyBytes : RespOp → Bytes
  | .write chunk => chunk
  | .endData data _ => data
  | _ => []

theorem applyOps_wire (ops : List RespOp) :
    ∀ s : ResponseBuffer × WireState, (applyOps s ops).2 = s.2 := by
  induction ops with
  | nil => intro s; rfl
  | cons op rest ih =>
      intro s
      have hstep : (applyOp s op).2 = s.2 := by
        cases op <;> rfl
      calc (applyOps (applyOp s op) rest).2
          = (applyOp s op).2 := ih (applyOp s op)
        _ = s.2 := hstep

theorem applyOps_body (ops : List RespOp) :
    ∀ s : ResponseBuffer × WireState,
      (applyOps s ops).1.body = s.1.body ++ (ops.map opBodyBytes).flatten := by
  induction ops with
  | nil => intro s; simp [applyOps]
  | cons op rest ih =>
      intro s
      have hstep : (applyOp s op).1.body = s.1.body ++ opBodyBytes op := by
        cases op <;> simp [applyOp, opBodyBytes]
      calc (applyOps (applyOp s op) rest).1.body
          = (applyOp s op).1.body ++ (rest.map opBodyBytes).flatten :=
            ih (applyOp s op)
        _ = s.1.body ++ ((op :: rest).map opBodyBytes).flatten := by
            rw [hstep]
            simp [List.append_assoc]

/-- C7: any sequence of intercepted `write` / `addTrailers` / `end` calls
delivers nothing to the underlying response (the wire trace is
unchanged), the buffered body is exactly the concatenation of the bytes
those calls carried, and `release()` flushes exactly three events in
order: the accumulated body bytes, then the trailers, then termination
with the stored end-callback. -/
theorem responseBuffer_spec (w0 : WireState) (ops : List RespOp) :
    (applyOps (initBuffer, w0) ops).2 = w0 ∧
    (applyOps (initBuffer, w0) ops).1.body = (ops.map opBodyBytes).flatten ∧
    (release (applyOps (initBuffer, w0) ops)).events =
      w0.events ++
        [WireEvent.write (applyOps (initBuffer, w0) ops).1.body,
         WireEvent.addTrailers (applyOps (initBuffer, w0) ops).1.trailers,
         WireEvent.endRes (applyOps (initBuffer, w0) ops).1.cb] := by
  have hw := applyOps_wire ops (initBuffer, w0)
  refine ⟨hw, by simpa [initBuffer] using applyOps_body ops (initBuffer, w0), ?_⟩
  simp [release, origWrite, origAddTrailers, origEnd, hw]

/-! ## Headers: `set_header_value` / `get_header_values` (claims C9, C10)

Header names and values are modeled as UTF-8 byte sequences. JS
`toLowerCase` is modeled on the ASCII range (header names are ASCII).
`getHeaderValues` computes, for the lower-cased name:

```ts
const n = this.mustReadString('name', name, nameLen).toLowerCase();
let values: string[] = [];
const value = headers[n];
if (value) {
  if (Array.isArray(value)) { values = value; }
  else { values.push(value.toString()); }
}
return this.writeNullTerminated(buf, bufLimit, values);
```
and `setHeader`:

```ts
if (nameLen == 0) throw new Error('HTTP header name cannot be empty');
if (kind !== HeaderKind.RESPONSE)
  throw new Error('TODO: Support non-response set_header');
const n = this.mustReadString('name', name, nameLen);
const v = this.mustReadString('value', value, valueLen);
stateStorage.getStore()?.response.setHeader(n, v);
```
-/

/-- ASCII lowercasing of one byte. -/
def lowerByte (b : Nat) : Nat := if 65 ≤ b ∧ b ≤ 90 then b + 32 else b

def lowerBytes (s : Bytes) : Bytes := s.map lowerByte

/-- A value in a `NodeJS.Dict<string | string[] | number>` header
collection. -/
inductive HV
  | str (s : Bytes)
  | num (n : Int)
  | arr (l : List Bytes)
  deriving DecidableEq

abbrev Headers := List (Bytes × HV)

/-- JS object property lookup (`headers[n]`), `none` = `undefined`. -/
def lookupHV : Headers → Bytes → Option HV
  | [], _ => none
  | (k, v) :: rest, n => if k = n then some v else lookupHV rest n

/-- Rendering `value.toString()` of a numeric header value, as UTF-8 bytes. -/
def numBytes (n : Int) : Bytes :=
  (toString n).toUTF8.toList.map (fun c => c.toNat)

/-- The `values` array `getHeaderValues` builds for an (already
lower-cased) name: a JS falsy value (`undefined`, `''`, `0`) yields `[]`,
an array is used as is, anything else contributes `value.toString()`. -/
def headerValues (hs : Headers) (n : Bytes) : List Bytes :=
  match lookupHV hs n with
  | none => []
  | some (.arr l) => l
  | some (.str s) => if s = [] then [] else [s]
  | some (.num k) => if k = 0 then [] else [numBytes k]

inductive HeaderKind
  | request
  | response
  | requestTrailers
  | responseTrailers
  deriving DecidableEq

/-- Model of `getHeaderValues`, after the kind switch has selected the header
collection `hs`; `none` models a guest trap. (`mustReadString` with a
nonzero length is `mustRead` followed by UTF-8 decoding.) -/
def getHeaderValues (hs : Headers) (mem : Mem)
    (name nameLen buf bufLimit : Nat) : Option (Nat × Mem) :=
  if nameLen = 0 then none
  else
    match mustRead mem name nameLen with
    | none => none
    | some nb =>
        some (writeNullTerminated mem buf bufLimit
          (headerValues hs (lowerBytes nb)))

/-- Replace the entry for key `k` (if this is it) with the single string
value `v`. -/
def setEntry (k : Bytes) (v : Bytes) (p : Bytes × HV) : Bytes × HV :=
  if p.1 = k then (p.1, HV.str v) else p

/-- Node's `response.setHeader(n, v)` as observed through
`getHeaders()`: the value is stored under the lower-cased name,
replacing any previous value, as the single string `v`. -/
def nodeSetHeader (hs : Headers) (n v : Bytes) : Headers :=
  if (lookupHV hs (lowerBytes n)).isSome then
    hs.map (setEntry (lowerBytes n) v)
  else hs ++ [(lowerBytes n, HV.str v)]

/-- The `set_header_value` host function; `none` models a guest trap. -/
def setHeader (kind : HeaderKind) (hs : Headers) (mem : Mem)
    (name nameLen value valueLen : Nat) : Option Headers :=
  if nameLen = 0 then none
  else if kind ≠ HeaderKind.response then none
  else
    match mustRead mem name nameLen, mustRead mem value valueLen with
    | some nb, some vb => some (nodeSetHeader hs nb vb)
    | _, _ => none

theorem setEntry_hit (k v k2 : Bytes) (v2 : HV) (h : k2 = k) :
    setEntry k v (k2, v2) = (k2, HV.str v) := by
  simp [setEntry, h]

theorem setEntry_miss (k v k2 : Bytes) (v2 : HV) (h : ¬k2 = k) :
    setEntry k v (k2, v2) = (k2, v2) := by
  simp [setEntry, h]

theorem lookupHV_map_update (hs : Headers) (k : Bytes) (v : Bytes)
    (h : (lookupHV hs k).isSome) :
    lookupHV (hs.map (setEntry k v)) k = some (HV.str v) := by
  induction hs with
  | nil => simp [lookupHV] at h
  | cons p rest ih =>
      obtain ⟨k2, v2⟩ := p
      rw [List.map_cons]
      by_cases hk : k2 = k
      · rw [setEntry_hit k v k2 v2 hk]
        simp [lookupHV, hk]
      · rw [setEntry_miss k v k2 v2 hk]
        have h2 : (lookupHV rest k).isSome := by
          simpa [lookupHV, hk] using h
        simpa [lookupHV, hk] using ih h2

theorem lookupHV_append_absent (hs : Headers) (k : Bytes) (v : Bytes)
    (h : lookupHV hs k = none) :
    lookupHV (hs ++ [(k, HV.str v)]) k = some (HV.str v) := by
  induction hs with
  | nil => simp [lookupHV]
  | cons p rest ih =>
      obtain ⟨k2, v2⟩ := p
      by_cases hk : k2 = k
      · simp [lookupHV, hk] at h
      · have h2 : lookupHV rest k = none := by
          simpa [lookupHV, hk] using h
        simpa [lookupHV, hk] using ih h2

theorem lookupHV_nodeSetHeader (hs : Headers) (n v : Bytes) :
    lookupHV (nodeSetHeader hs n v) (lowerBytes n) = some (HV.str v) := by
  unfold nodeSetHeader
  by_cases h : (lookupHV hs (lowerBytes n)).isSome
  · rw [if_pos h]
    exact lookupHV_map_update hs (lowerBytes n) v h
  · rw [if_neg h]
    exact lookupHV_append_absent hs (lowerBytes n) v
      (Option.not_isSome_iff_eq_none.mp h)

/-- C9 counterexample: `set_header_value` with `kind = REQUEST`, a
non-empty name (`nameLen = 1`) and readable name/value bytes does not
succeed — the code throws `TODO: Support non-response set_header` — so
the claim fails for every kind other than RESPONSE. -/
theorem setHeader_kind_cex :
    setHeader HeaderKind.request [] [97, 98, 99] 0 1 1 1 = none ∧
    (1 : Nat) ≠ 0 := by
  decide

/-- C9 amended: for `kind = RESPONSE`, a non-empty name and a readable,
non-empty value, `set_header_value` succeeds and replaces the named
header with the single value, so that `get_header_values` on the same
name afterwards computes exactly the one-element list `[v]`. (Other
kinds trap with a TODO error; an empty value is falsy in JS and reads
back as `[]`.) -/
theorem setHeader_get_roundtrip_amended (hs : Headers) (mem : Mem)
    (name nameLen value valueLen : Nat) (nb vb : Bytes)
    (h1 : 0 < nameLen) (h2 : mustRead mem name nameLen = some nb)
    (h3 : mustRead mem value valueLen = some vb) (h4 : vb ≠ []) :
    setHeader HeaderKind.response hs mem name nameLen value valueLen
      = some (nodeSetHeader hs nb vb) ∧
    headerValues (nodeSetHeader hs nb vb) (lowerBytes nb) = [vb] := by
  have hne : nameLen ≠ 0 := by omega
  constructor
  · simp [setHeader, hne, h2, h3]
  · simp [headerValues, lookupHV_nodeSetHeader hs nb vb, h4]

/-- Concrete instance of the amended C9 theorem: setting header `"A"` to
`"x"` on an empty collection and reading `"a"` back yields `["x"]`. -/
theorem setHeader_get_roundtrip_amended_witness :
    setHeader HeaderKind.response [] [65, 120, 0] 0 1 1 1
      = some (nodeSetHeader [] [65] [120]) ∧
    headerValues (nodeSetHeader [] [65] [120]) (lowerBytes [65])
      = [[120]] :=
  setHeader_get_roundtrip_amended [] [65, 120, 0] 0 1 1 1 [65] [120]
    (by decide) (by decide) (by decide) (by decide)

/-- C10: `get_header_values` for a non-empty, readable name that is
absent from the selected kind's header collection returns the packed
value `0` (count `0`, `byte_count` `0`) and leaves guest memory
untouched. -/
theorem getHeaderValues_absent_zero (hs : Headers) (mem : Mem)
    (name nameLen buf bufLimit : Nat) (nb : Bytes)
    (h1 : 0 < nameLen) (h2 : mustRead mem name nameLen = some nb)
    (h3 : lookupHV hs (lowerBytes nb) = none) :
    getHeaderValues hs mem name nameLen buf bufLimit = some (0, mem) := by
  have hne : nameLen ≠ 0 := by omega
  simp [getHeaderValues, hne, h2, headerValues, h3, writeNullTerminated]

/-- Concrete instance of the C10 theorem: an absent name in an empty
collection returns `0` and unchanged memory. -/
theorem getHeaderValues_absent_zero_witness :
    getHeaderValues [] [97, 0] 0 1 0 5 = some (0, [97, 0]) :=
  getHeaderValues_absent_zero [] [97, 0] 0 1 0 5 [97]
    (by decide) (by decide) (by decide)

end HttpWasm
